import Mathlib

/-!
Formal model of the user-based collaborative-filtering recommender
(`src/Pj3/Ex3.py`): rating stores, cosine similarity, prediction
aggregation, ranking and truncation, with proofs of the specification
claims. Python dicts are embedded as insertion-ordered association
lists, scores as exact rationals; similarity values live in `ℝ`.
-/

namespace Ex3

/-- A user's rating vector: item id ↦ score, insertion ordered (a Python dict). -/
abbrev RatingVector := List (String × ℚ)

/-- The rating store: user id ↦ rating vector (a Python dict of dicts). -/
abbrev Store := List (String × RatingVector)

/-- The item keys of a rating vector, in insertion order. -/
def keys (v : RatingVector) : List String := v.map Prod.fst

/-- Python `item in d` on a rating vector. -/
def hasKey (v : RatingVector) (i : String) : Bool := decide (i ∈ keys v)

/-- Python `d[item]` (total, defaulting to `0`; only used where the key is present). -/
def val (v : RatingVector) (i : String) : ℚ :=
  ((v.find? (fun e => e.1 = i)).map Prod.snd).getD 0

/-- Python `ratings.get(user_id)`. -/
def getUser (ratings : Store) (uid : String) : Option RatingVector :=
  (ratings.find? (fun e => e.1 = uid)).map Prod.snd

/-- `common_items = set(user_ratings1.keys()) & set(user_ratings2.keys())`. -/
def commonItems (a b : RatingVector) : Finset String :=
  (keys a).toFinset ∩ (keys b).toFinset

/-- `sum1`: the dot product over the common items (a Python set, so a `Finset` sum). -/
def sum1 (a b : RatingVector) : ℚ := ∑ i in commonItems a b, val a i * val b i

/-- `sum1_sq`: squared norm of the first vector restricted to the common items. -/
def sum1_sq (a b : RatingVector) : ℚ := ∑ i in commonItems a b, (val a i) ^ 2

/-- `sum2_sq`: squared norm of the second vector restricted to the common items. -/
def sum2_sq (a b : RatingVector) : ℚ := ∑ i in commonItems a b, (val b i) ^ 2

/-- `cosine_similarity(user_ratings1, user_ratings2)` from `Ex3.py`:
returns `0` on empty overlap, otherwise `sum1 / denominator` with the
`denominator != 0` guard, where `denominator = sqrt(sum1_sq) * sqrt(sum2_sq)`. -/
noncomputable def cosine_similarity (a b : RatingVector) : ℝ :=
  if commonItems a b = ∅ then 0
  else
    if Real.sqrt (sum1_sq a b) * Real.sqrt (sum2_sq a b) ≠ 0 then
      (sum1 a b : ℝ) / (Real.sqrt (sum1_sq a b) * Real.sqrt (sum2_sq a b))
    else 0

/-- The score-validation loop of `load_ratings`: the first `(user, item, score)`
triple whose score falls outside `[0, 5]`, scanning users and, within a user,
items in insertion order. -/
def firstViolation : Store → Option (String × String × ℚ)
  | [] => none
  | e :: rest =>
    match e.2.find? (fun iv => ¬ (0 ≤ iv.2 ∧ iv.2 ≤ 5)) with
    | some iv => some (e.1, iv.1, iv.2)
    | none => firstViolation rest

/-- The validation core of `load_ratings` on already-parsed data: it raises
`ValueError("非法评分: …", user, item, score)` at the first out-of-range score
and otherwise returns the data unchanged. (In the source the raise is caught
by the function's own `try/except`, which prints the message and yields `{}`
to the caller — so on failure no partial store escapes either way; file I/O
and JSON parsing stay outside the model.) -/
def load_ratings (data : Store) : Except (String × String × ℚ) Store :=
  match firstViolation data with
  | some v => .error v
  | none => .ok data

/-- The accumulator of `recommend`: item ↦ (weighted score sum, similarity
sum), insertion ordered. The two Python dicts `scores` and `sim_sums` are
always updated in lockstep under the same key, so they share keys and
insertion order and are modelled as a single association list. -/
abbrev Acc := List (String × ℝ × ℝ)

/-- One `setdefault`-plus-`+=` update pair under key `i`: add `w` to the
weighted-score component and `s` to the similarity component, appending a
fresh `(i, w, s)` entry when the key is new (Python dict semantics). -/
def addContribution : Acc → String → ℝ → ℝ → Acc
  | [], i, w, s => [(i, w, s)]
  | e :: rest, i, w, s =>
    if e.1 = i then (e.1, e.2.1 + w, e.2.2 + s) :: rest
    else e :: addContribution rest i w s

/-- The inner loop `for item, rating in other_ratings.items()` of `recommend`
for one other user whose similarity to the target is `sim`: items already
rated by the target are skipped. -/
noncomputable def processItems (tv : RatingVector) (sim : ℝ) (rv : RatingVector)
    (acc : Acc) : Acc :=
  rv.foldl
    (fun a iv => if hasKey tv iv.1 then a else addContribution a iv.1 (sim * (iv.2 : ℝ)) sim)
    acc

/-- The body of `for other_user, other_ratings in ratings.items()`: the target
user itself is skipped, every other user contributes with its cosine
similarity to the target. -/
noncomputable def processUser (uid : String) (tv : RatingVector) (acc : Acc)
    (e : String × RatingVector) : Acc :=
  if e.1 = uid then acc else processItems tv (cosine_similarity tv e.2) e.2 acc

/-- The full aggregation loop of `recommend`, over users in store order. -/
noncomputable def aggregate (uid : String) (tv : RatingVector) (ratings : Store) : Acc :=
  ratings.foldl (processUser uid tv) []

/-- Round to the nearest integer with ties to even, the convention of
Python's builtin `round`. -/
noncomputable def roundHalfEven (x : ℝ) : ℤ :=
  if x - ⌊x⌋ < 1 / 2 then ⌊x⌋
  else if 1 / 2 < x - ⌊x⌋ then ⌊x⌋ + 1
  else if Even ⌊x⌋ then ⌊x⌋ else ⌊x⌋ + 1

/-- Python `round(x, 2)` over exact reals: round `100·x` to the nearest
integer (ties to even) and divide back by `100`. -/
noncomputable def round2 (x : ℝ) : ℝ := (roundHalfEven (100 * x) : ℝ) / 100

/-- The prediction comprehension of `recommend`: for each accumulated item in
insertion order, emit `(item, round(scores[item] / sim_sums[item], 2))` when
`sim_sums[item] != 0`, and skip the item entirely otherwise. -/
noncomputable def predictions (uid : String) (tv : RatingVector) (ratings : Store) :
    List (String × ℝ) :=
  (aggregate uid tv ratings).filterMap fun e =>
    if e.2.2 ≠ 0 then some (e.1, round2 (e.2.1 / e.2.2)) else none

/-- Insert into a descending-sorted list: the new element goes before the
first entry with a smaller-or-equal score, i.e. after every earlier entry
with a strictly larger or an equal score — the unique stable position. -/
noncomputable def insertDesc (x : String × ℝ) : List (String × ℝ) → List (String × ℝ)
  | [] => [x]
  | y :: ys => if y.2 ≤ x.2 then x :: y :: ys else y :: insertDesc x ys

/-- Python's `predictions.sort(key=lambda x: x[1], reverse=True)`: the sort
is stable, and a stable descending sort is uniquely determined by sortedness
plus stability, so this stable insertion sort has the reference behavior. -/
noncomputable def sortDesc : List (String × ℝ) → List (String × ℝ)
  | [] => []
  | x :: xs => insertDesc x (sortDesc xs)

/-- Python slice `l[:n]`: a prefix of length `n` for `n ≥ 0`, and everything
but the last `-n` elements for negative `n` (clamped at the ends). -/
def pySliceTo {α : Type} (l : List α) (n : ℤ) : List α :=
  if 0 ≤ n then l.take n.toNat else l.take (l.length - (-n).toNat)

/-- `recommend(user_id, ratings, top_n)` from `Ex3.py`. The guard
`if not target_ratings:` prints `"用户 … 不存在"` and returns `[]` both when
`ratings.get(user_id)` is `None` (absent user) and when the stored rating
vector is the empty dict (also falsy); `.error uid` models exactly that
reported-failure path, carrying the user id from the printed message. -/
noncomputable def recommend (uid : String) (ratings : Store) (top_n : ℤ) :
    Except String (List (String × ℝ)) :=
  match getUser ratings uid with
  | none => .error uid
  | some tv =>
    if tv = [] then .error uid
    else .ok (pySliceTo (sortDesc (predictions uid tv ratings)) top_n)

/-- The keys of the accumulator, in insertion order. -/
def accKeys (acc : Acc) : List String := acc.map Prod.fst

/-- Dict lookup in the accumulator. -/
def lookupAcc (acc : Acc) (i : String) : Option (ℝ × ℝ) :=
  (acc.find? (fun e => e.1 = i)).map Prod.snd

/-- Appending a key to a key list unless it is already present — the key
behavior of `dict.setdefault`. -/
def addKey (ks : List String) (i : String) : List String :=
  if i ∈ ks then ks else ks ++ [i]

/-- Spec-side contributor list for item `i`: the store entries of other
users whose vector rates `i` (the claim's "other users `v` rating `i`"),
in store order. -/
def contributors (uid : String) (ratings : Store) (i : String) : Store :=
  ratings.filter (fun e => ¬ (e.1 = uid) ∧ hasKey e.2 i)

/-- Spec-side `weighted_sum[i]`: the sum over other users `v` rating `i` of
`similarity(target, v) · v[i]`. -/
noncomputable def weightedSumSpec (uid : String) (tv : RatingVector) (ratings : Store)
    (i : String) : ℝ :=
  ((contributors uid ratings i).map
    (fun e => cosine_similarity tv e.2 * (val e.2 i : ℝ))).sum

/-- Spec-side `similarity_sum[i]`: the sum over other users `v` rating `i`
of `similarity(target, v)`. -/
noncomputable def simSumSpec (uid : String) (tv : RatingVector) (ratings : Store)
    (i : String) : ℝ :=
  ((contributors uid ratings i).map (fun e => cosine_similarity tv e.2)).sum

lemma commonItems_comm (a b : RatingVector) : commonItems a b = commonItems b a :=
  Finset.inter_comm _ _

lemma sum1_comm (a b : RatingVector) : sum1 a b = sum1 b a := by
  unfold sum1
  rw [commonItems_comm]
  exact Finset.sum_congr rfl fun i _ => mul_comm _ _

lemma sum1_sq_swap (a b : RatingVector) : sum1_sq a b = sum2_sq b a := by
  unfold sum1_sq sum2_sq
  rw [commonItems_comm]

lemma sum2_sq_swap (a b : RatingVector) : sum2_sq a b = sum1_sq b a := by
  unfold sum1_sq sum2_sq
  rw [commonItems_comm]

lemma sum1_sq_nonneg (a b : RatingVector) : (0 : ℚ) ≤ sum1_sq a b :=
  Finset.sum_nonneg fun _ _ => sq_nonneg _

lemma sum2_sq_nonneg (a b : RatingVector) : (0 : ℚ) ≤ sum2_sq a b :=
  Finset.sum_nonneg fun _ _ => sq_nonneg _

/-- Cauchy–Schwarz instantiated for the restricted dot product and norms. -/
lemma abs_sum1_le (a b : RatingVector) :
    |(sum1 a b : ℝ)| ≤ Real.sqrt (sum1_sq a b) * Real.sqrt (sum2_sq a b) := by
  have hcs := Finset.sum_mul_sq_le_sq_mul_sq (commonItems a b)
    (fun i => (val a i : ℝ)) (fun i => (val b i : ℝ))
  have hs1 : ((sum1 a b : ℚ) : ℝ) = ∑ i in commonItems a b, (val a i : ℝ) * (val b i : ℝ) := by
    unfold sum1; push_cast; rfl
  have hsq1 : ((sum1_sq a b : ℚ) : ℝ) = ∑ i in commonItems a b, (val a i : ℝ) ^ 2 := by
    unfold sum1_sq; push_cast; rfl
  have hsq2 : ((sum2_sq a b : ℚ) : ℝ) = ∑ i in commonItems a b, (val b i : ℝ) ^ 2 := by
    unfold sum2_sq; push_cast; rfl
  have h1 : ((sum1 a b : ℚ) : ℝ) ^ 2 ≤ ((sum1_sq a b : ℚ) : ℝ) * ((sum2_sq a b : ℚ) : ℝ) := by
    rw [hs1, hsq1, hsq2]; exact hcs
  have h2 : |(sum1 a b : ℝ)| = Real.sqrt (((sum1 a b : ℚ) : ℝ) ^ 2) :=
    (Real.sqrt_sq_eq_abs _).symm
  rw [h2]
  calc Real.sqrt (((sum1 a b : ℚ) : ℝ) ^ 2)
      ≤ Real.sqrt (((sum1_sq a b : ℚ) : ℝ) * ((sum2_sq a b : ℚ) : ℝ)) :=
        Real.sqrt_le_sqrt h1
    _ = Real.sqrt (sum1_sq a b) * Real.sqrt (sum2_sq a b) := by
        rw [Real.sqrt_mul (by exact_mod_cast sum1_sq_nonneg a b)]

/-- The similarity value always lies in `[-1, 1]`. -/
lemma abs_cosine_le_one (a b : RatingVector) : |cosine_similarity a b| ≤ 1 := by
  unfold cosine_similarity
  by_cases hc : commonItems a b = ∅
  · simp [hc]
  · simp only [hc, if_false, ite_not]
    by_cases hd : Real.sqrt (sum1_sq a b) * Real.sqrt (sum2_sq a b) = 0
    · simp [hd]
    · simp only [hd, if_false]
      have hdnn : 0 ≤ Real.sqrt (sum1_sq a b) * Real.sqrt (sum2_sq a b) :=
        mul_nonneg (Real.sqrt_nonneg _) (Real.sqrt_nonneg _)
      have hdpos : 0 < Real.sqrt (sum1_sq a b) * Real.sqrt (sum2_sq a b) :=
        lt_of_le_of_ne hdnn (Ne.symm hd)
      rw [abs_div, abs_of_pos hdpos, div_le_one hdpos]
      exact abs_sum1_le a b

/-- C4: for any two rating vectors, `cosine_similarity` is the guarded
normalized dot product restricted to the common item keys: it is `0` on an
empty common-key set, `0` whenever either restricted norm is exactly zero
(so the division is always guarded), and otherwise equals the dot product
over the common items divided by the product of the two restricted
Euclidean norms. -/
theorem claim_C4_similarity_formula (a b : RatingVector) :
    (commonItems a b = ∅ → cosine_similarity a b = 0) ∧
    (Real.sqrt (sum1_sq a b) = 0 ∨ Real.sqrt (sum2_sq a b) = 0 →
      cosine_similarity a b = 0) ∧
    (commonItems a b ≠ ∅ → Real.sqrt (sum1_sq a b) ≠ 0 → Real.sqrt (sum2_sq a b) ≠ 0 →
      cosine_similarity a b =
        (sum1 a b : ℝ) / (Real.sqrt (sum1_sq a b) * Real.sqrt (sum2_sq a b))) := by
  refine ⟨fun hc => by simp [cosine_similarity, hc], ?_, ?_⟩
  · intro h
    have hd : Real.sqrt (sum1_sq a b) * Real.sqrt (sum2_sq a b) = 0 := by
      rcases h with h | h
      · rw [h, zero_mul]
      · rw [h, mul_zero]
    by_cases hc : commonItems a b = ∅ <;> simp [cosine_similarity, hc, hd]
  · intro hc h1 h2
    have hd : Real.sqrt (sum1_sq a b) * Real.sqrt (sum2_sq a b) ≠ 0 := mul_ne_zero h1 h2
    simp [cosine_similarity, hc, hd]

/-- Witness for C4: a disjoint pair hits the empty-overlap case, an all-zero
common restriction hits the zero-norm case, and a shared item with nonzero
score hits the genuine quotient case. -/
theorem claim_C4_witness :
    cosine_similarity [("x", (1 : ℚ))] [("y", (1 : ℚ))] = 0 ∧
    cosine_similarity [("x", (0 : ℚ))] [("x", (1 : ℚ))] = 0 ∧
    cosine_similarity [("x", (3 : ℚ))] [("x", (3 : ℚ))] =
      (sum1 [("x", (3 : ℚ))] [("x", (3 : ℚ))] : ℝ) /
        (Real.sqrt (sum1_sq [("x", (3 : ℚ))] [("x", (3 : ℚ))]) *
          Real.sqrt (sum2_sq [("x", (3 : ℚ))] [("x", (3 : ℚ))])) := by
  refine ⟨(claim_C4_similarity_formula _ _).1 (by decide), ?_, ?_⟩
  · refine (claim_C4_similarity_formula _ _).2.1 (Or.inl ?_)
    have h0 : sum1_sq [("x", (0 : ℚ))] [("x", (1 : ℚ))] = 0 := by
      simp [sum1_sq, commonItems, keys, val, List.find?]
    rw [h0]
    simp
  · refine (claim_C4_similarity_formula _ _).2.2 (by decide) ?_ ?_
    · have h9 : sum1_sq [("x", (3 : ℚ))] [("x", (3 : ℚ))] = 9 := by
        simp [sum1_sq, commonItems, keys, val, List.find?]
        norm_num
      rw [h9, Real.sqrt_ne_zero']
      norm_num
    · have h9 : sum2_sq [("x", (3 : ℚ))] [("x", (3 : ℚ))] = 9 := by
        simp [sum2_sq, commonItems, keys, val, List.find?]
        norm_num
      rw [h9, Real.sqrt_ne_zero']
      norm_num

/-- C6: for every pair of rating vectors the similarity lies in `[-1, 1]`,
and it is `0` whenever the two vectors share no rated item. -/
theorem claim_C6_similarity_bounds (a b : RatingVector) :
    (-1 ≤ cosine_similarity a b ∧ cosine_similarity a b ≤ 1) ∧
    (commonItems a b = ∅ → cosine_similarity a b = 0) :=
  ⟨abs_le.mp (abs_cosine_le_one a b), fun hc => by simp [cosine_similarity, hc]⟩

/-- Witness for C6: concrete bounds, and the zero-overlap clause discharged
on a disjoint pair of vectors. -/
theorem claim_C6_witness :
    (-1 ≤ cosine_similarity [("x", (1 : ℚ))] [("y", (2 : ℚ))] ∧
      cosine_similarity [("x", (1 : ℚ))] [("y", (2 : ℚ))] ≤ 1) ∧
    cosine_similarity [("x", (1 : ℚ))] [("y", (2 : ℚ))] = 0 :=
  ⟨(claim_C6_similarity_bounds _ _).1, (claim_C6_similarity_bounds _ _).2 (by decide)⟩

/-- C7: cosine similarity is symmetric in its two rating-vector arguments. -/
theorem claim_C7_similarity_symm (a b : RatingVector) :
    cosine_similarity a b = cosine_similarity b a := by
  unfold cosine_similarity
  rw [commonItems_comm a b, sum1_comm a b, sum1_sq_swap a b, sum2_sq_swap a b,
    mul_comm (Real.sqrt (sum2_sq b a)) (Real.sqrt (sum1_sq b a))]

lemma firstViolation_eq_none_iff (data : Store) :
    firstViolation data = none ↔ ∀ e ∈ data, ∀ iv ∈ e.2, 0 ≤ iv.2 ∧ iv.2 ≤ 5 := by
  induction data with
  | nil => simp [firstViolation]
  | cons e rest ih =>
    rcases hf : e.2.find? (fun iv => ¬ (0 ≤ iv.2 ∧ iv.2 ≤ 5)) with _ | iv
    · have hall : ∀ iv ∈ e.2, 0 ≤ iv.2 ∧ iv.2 ≤ 5 := by
        intro iv hiv
        have h1 := List.find?_eq_none.mp hf iv hiv
        have h2 : ¬ ¬ (0 ≤ iv.2 ∧ iv.2 ≤ 5) := fun hn => h1 (decide_eq_true hn)
        exact not_not.mp h2
      simp only [firstViolation, hf, ih]
      constructor
      · intro h f hf'
        rcases List.mem_cons.mp hf' with h' | h'
        · subst h'; exact hall
        · exact h f h'
      · intro h f hf'
        exact h f (List.mem_cons_of_mem _ hf')
    · simp only [firstViolation, hf]
      constructor
      · intro h; cases h
      · intro h
        have hmem := List.mem_of_find?_eq_some hf
        have hp := List.find?_some hf
        have hbad : ¬ (0 ≤ iv.2 ∧ iv.2 ≤ 5) := of_decide_eq_true hp
        exact absurd (h e (List.mem_cons_self e rest) iv hmem) hbad

lemma firstViolation_some (data : Store) (u i : String) (s : ℚ)
    (h : firstViolation data = some (u, i, s)) :
    ∃ items, (u, items) ∈ data ∧ (i, s) ∈ items ∧ ¬ (0 ≤ s ∧ s ≤ 5) := by
  induction data with
  | nil => simp [firstViolation] at h
  | cons e rest ih =>
    rcases hf : e.2.find? (fun iv => ¬ (0 ≤ iv.2 ∧ iv.2 ≤ 5)) with _ | iv
    · simp only [firstViolation, hf] at h
      obtain ⟨items, h1, h2, h3⟩ := ih h
      exact ⟨items, List.mem_cons_of_mem _ h1, h2, h3⟩
    · simp only [firstViolation, hf] at h
      have hmem := List.mem_of_find?_eq_some hf
      have hp := List.find?_some hf
      have hbad : ¬ (0 ≤ iv.2 ∧ iv.2 ≤ 5) := of_decide_eq_true hp
      obtain ⟨rfl, rfl, rfl⟩ : e.1 = u ∧ iv.1 = i ∧ iv.2 = s := by
        injection h with h'
        exact ⟨congrArg (fun p => p.1) h', congrArg (fun p => p.2.1) h',
          congrArg (fun p => p.2.2) h'⟩
      exact ⟨e.2, by simp, by simpa using hmem, hbad⟩

/-- C3: `load_ratings` validates every score against `0 ≤ score ≤ 5`; it
succeeds exactly when all scores are in range, a success returns the input
data unchanged (so a failing load constructs no partial store), and a failure
carries an actual offending `(user, item, score)` triple of the input. -/
theorem claim_C3_load_validation (data : Store) :
    ((∃ out, load_ratings data = .ok out) ↔
      ∀ e ∈ data, ∀ iv ∈ e.2, 0 ≤ iv.2 ∧ iv.2 ≤ 5) ∧
    (∀ out, load_ratings data = .ok out → out = data) ∧
    (∀ u i s, load_ratings data = .error (u, i, s) →
      ∃ items, (u, items) ∈ data ∧ (i, s) ∈ items ∧ ¬ (0 ≤ s ∧ s ≤ 5)) := by
  refine ⟨?_, ?_, ?_⟩
  · constructor
    · intro ⟨out, hout⟩
      unfold load_ratings at hout
      rcases hv : firstViolation data with _ | v
      · exact (firstViolation_eq_none_iff data).mp hv
      · rw [hv] at hout; cases hout
    · intro h
      refine ⟨data, ?_⟩
      unfold load_ratings
      rw [(firstViolation_eq_none_iff data).mpr h]
  · intro out hout
    unfold load_ratings at hout
    rcases hv : firstViolation data with _ | v
    · rw [hv] at hout; injection hout with h'; exact h'.symm
    · rw [hv] at hout; cases hout
  · intro u i s h
    unfold load_ratings at h
    rcases hv : firstViolation data with _ | v
    · rw [hv] at h; cases h
    · rw [hv] at h
      injection h with h'
      subst h'
      exact firstViolation_some data u i s hv

/-- Witness for C3: a store with the single score `6` is rejected with the
offending triple exposed, and an in-range store loads as-is. -/
theorem claim_C3_witness :
    (∃ out, load_ratings [("u1", [("i1", (5 : ℚ))])] = .ok out) ∧
    (∃ items, ("u1", items) ∈ [("u1", [("i1", (6 : ℚ))])] ∧ ("i1", (6 : ℚ)) ∈ items ∧
      ¬ ((0 : ℚ) ≤ 6 ∧ (6 : ℚ) ≤ 5)) := by
  constructor
  · refine (claim_C3_load_validation _).1.mpr ?_
    intro e he iv hiv
    simp only [List.mem_singleton] at he
    subst he
    simp only [List.mem_singleton] at hiv
    subst hiv
    norm_num
  · refine (claim_C3_load_validation _).2.2 "u1" "i1" 6 ?_
    simp only [load_ratings, firstViolation, List.find?]
    norm_num

/-- C2 (amended): the unknown-user failure path of `recommend` fires iff the
target's rating vector is absent **or empty** — the Python truthiness test
`if not target_ratings:` cannot tell a missing user from a present user with
an empty rating vector; in every other case the call succeeds. -/
theorem claim_C2_amended_guard (uid : String) (ratings : Store) (n : ℤ) :
    ((getUser ratings uid = none ∨ getUser ratings uid = some []) →
      recommend uid ratings n = .error uid) ∧
    (∀ tv, getUser ratings uid = some tv → tv ≠ [] →
      ∃ out, recommend uid ratings n = .ok out) := by
  constructor
  · rintro (h | h) <;> simp [recommend, h]
  · intro tv h htv
    refine ⟨pySliceTo (sortDesc (predictions uid tv ratings)) n, ?_⟩
    simp [recommend, h, htv]

/-- Counterexample to C2 as stated: user `"u1"` is present in the store (its
rating vector is found), yet `recommend` still takes the unknown-user failure
path because the empty vector is falsy. -/
theorem claim_C2_counterexample :
    getUser [("u1", ([] : RatingVector))] "u1" = some [] ∧
    recommend "u1" [("u1", ([] : RatingVector))] 3 = .error "u1" := by
  exact ⟨rfl, by simp [recommend, getUser, List.find?]⟩

/-- Witness for the amended C2: a genuinely absent user errors, a present
user with a nonempty vector succeeds. -/
theorem claim_C2_witness :
    recommend "ghost" [("u1", [("a", (1 : ℚ))])] 3 = .error "ghost" ∧
    ∃ out, recommend "u1" [("u1", [("a", (1 : ℚ))])] 3 = .ok out := by
  constructor
  · exact (claim_C2_amended_guard "ghost" _ 3).1
      (Or.inl (by simp [getUser, List.find?]))
  · exact (claim_C2_amended_guard "u1" _ 3).2 [("a", (1 : ℚ))]
      (by simp [getUser, List.find?]) (by simp)

lemma mem_insertDesc (x y : String × ℝ) (l : List (String × ℝ)) :
    y ∈ insertDesc x l ↔ y = x ∨ y ∈ l := by
  induction l with
  | nil => simp [insertDesc]
  | cons z zs ih =>
    unfold insertDesc
    by_cases h : z.2 ≤ x.2
    · simp [h]
    · simp only [h, if_false, List.mem_cons, ih]
      tauto

lemma insertDesc_perm (x : String × ℝ) (l : List (String × ℝ)) :
    List.Perm (insertDesc x l) (x :: l) := by
  induction l with
  | nil => simp [insertDesc]
  | cons z zs ih =>
    unfold insertDesc
    by_cases h : z.2 ≤ x.2
    · simp [h]
    · simp only [h, if_false]
      exact (ih.cons z).trans (List.Perm.swap x z zs)

lemma sortDesc_perm (l : List (String × ℝ)) : List.Perm (sortDesc l) l := by
  induction l with
  | nil => simp [sortDesc]
  | cons x xs ih => exact (insertDesc_perm x (sortDesc xs)).trans (ih.cons x)

lemma pairwise_insertDesc (x : String × ℝ) (l : List (String × ℝ))
    (hl : l.Pairwise (fun a b => b.2 ≤ a.2)) :
    (insertDesc x l).Pairwise (fun a b => b.2 ≤ a.2) := by
  induction l with
  | nil => simp [insertDesc]
  | cons z zs ih =>
    rcases List.pairwise_cons.mp hl with ⟨hz, hzs⟩
    unfold insertDesc
    by_cases h : z.2 ≤ x.2
    · rw [if_pos h]
      refine List.pairwise_cons.mpr ⟨?_, hl⟩
      intro b hb
      rcases List.mem_cons.mp hb with rfl | hb'
      · exact h
      · exact le_trans (hz b hb') h
    · rw [if_neg h]
      refine List.pairwise_cons.mpr ⟨?_, ih hzs⟩
      intro b hb
      rcases (mem_insertDesc x b zs).mp hb with rfl | hb'
      · exact le_of_not_le h
      · exact hz b hb'

lemma sortDesc_pairwise (l : List (String × ℝ)) :
    (sortDesc l).Pairwise (fun a b => b.2 ≤ a.2) := by
  induction l with
  | nil => simp [sortDesc]
  | cons x xs ih => exact pairwise_insertDesc x (sortDesc xs) ih

/-- Stability of the descending insertion: inserting into a sorted list puts
the new element in front of every existing entry with the same score. -/
lemma filter_insertDesc (c : ℝ) (x : String × ℝ) (l : List (String × ℝ))
    (hl : l.Pairwise (fun a b => b.2 ≤ a.2)) :
    (insertDesc x l).filter (fun e => e.2 = c) =
      if x.2 = c then x :: l.filter (fun e => e.2 = c)
      else l.filter (fun e => e.2 = c) := by
  induction l with
  | nil => by_cases hx : x.2 = c <;> simp [insertDesc, hx]
  | cons z zs ih =>
    rcases List.pairwise_cons.mp hl with ⟨hz, hzs⟩
    unfold insertDesc
    by_cases h : z.2 ≤ x.2
    · rw [if_pos h]
      by_cases hx : x.2 = c <;> simp [hx, List.filter_cons]
    · rw [if_neg h]
      have hlt : x.2 < z.2 := lt_of_not_le h
      by_cases hx : x.2 = c
      · have hz' : ¬ (z.2 = c) := by rw [← hx]; exact ne_of_gt hlt
        simp [hx, hz', List.filter_cons, ih hzs]
      · simp [hx, List.filter_cons, ih hzs]

/-- Stability of the sort: entries with any given score keep their original
relative order (Python's `list.sort` contract). -/
lemma filter_sortDesc (c : ℝ) (l : List (String × ℝ)) :
    (sortDesc l).filter (fun e => e.2 = c) = l.filter (fun e => e.2 = c) := by
  induction l with
  | nil => simp [sortDesc]
  | cons x xs ih =>
    unfold sortDesc
    rw [filter_insertDesc c x (sortDesc xs) (sortDesc_pairwise xs)]
    by_cases hx : x.2 = c <;> simp [hx, List.filter_cons, ih]

lemma filter_take_eq_take_filter {α : Type} (p : α → Bool) (l : List α) (n : ℕ) :
    ∃ k, (l.take n).filter p = (l.filter p).take k := by
  induction l generalizing n with
  | nil => exact ⟨0, by simp⟩
  | cons x xs ih =>
    cases n with
    | zero => exact ⟨0, by simp⟩
    | succ m =>
      obtain ⟨k, hk⟩ := ih m
      by_cases hp : p x = true
      · exact ⟨k + 1, by simp [List.filter_cons, hp, hk]⟩
      · exact ⟨k, by simp [List.filter_cons, hp, hk]⟩

/-- C5: on a successful query with `top_n = n ≥ 0`, the result is exactly the
first `n` entries of the score-descending sort of the predictions; hence it
is sorted descending, its length is at most `n`, and `n = 0` gives `[]`. -/
theorem claim_C5_rank_truncate (uid : String) (ratings : Store) (tv : RatingVector)
    (n : ℤ) (h : getUser ratings uid = some tv) (htv : tv ≠ []) (hn : 0 ≤ n) :
    ∃ out, recommend uid ratings n = .ok out ∧
      out = (sortDesc (predictions uid tv ratings)).take n.toNat ∧
      out.Pairwise (fun a b => b.2 ≤ a.2) ∧
      out.length ≤ n.toNat ∧
      (n = 0 → out = []) := by
  refine ⟨pySliceTo (sortDesc (predictions uid tv ratings)) n, ?_, ?_, ?_, ?_, ?_⟩
  · simp [recommend, h, htv]
  · simp [pySliceTo, hn]
  · simp only [pySliceTo, hn, if_pos]
    exact List.Pairwise.sublist (List.take_sublist _ _) (sortDesc_pairwise _)
  · simp only [pySliceTo, hn, if_pos, List.length_take]
    exact min_le_left _ _
  · intro h0
    subst h0
    simp [pySliceTo]

/-- Witness for C5: a store with one user, queried with `top_n = 0`. -/
theorem claim_C5_witness :
    ∃ out, recommend "u1" [("u1", [("a", (1 : ℚ))])] 0 = .ok out ∧
      out = (sortDesc (predictions "u1" [("a", (1 : ℚ))]
        [("u1", [("a", (1 : ℚ))])])).take (0 : ℤ).toNat ∧
      out.Pairwise (fun a b => b.2 ≤ a.2) ∧
      out.length ≤ (0 : ℤ).toNat ∧
      ((0 : ℤ) = 0 → out = []) :=
  claim_C5_rank_truncate "u1" _ _ 0 (by simp [getUser, List.find?]) (by simp) (by decide)

/-- C10: a negative `top_n = -k` is not an error and is not truncation to
nothing: Python slice semantics drop the **last** `k` entries of the sorted
prediction list, so the result has length `max (0, #predictions − k)` and is
nonempty whenever more than `k` predictions exist. -/
theorem claim_C10_negative_topn (uid : String) (ratings : Store) (tv : RatingVector)
    (n : ℤ) (h : getUser ratings uid = some tv) (htv : tv ≠ []) (hn : n < 0) :
    ∃ out, recommend uid ratings n = .ok out ∧
      out = (sortDesc (predictions uid tv ratings)).take
        ((predictions uid tv ratings).length - (-n).toNat) ∧
      out.length = (predictions uid tv ratings).length - (-n).toNat ∧
      ((-n).toNat < (predictions uid tv ratings).length → out ≠ []) := by
  have hlen : (sortDesc (predictions uid tv ratings)).length =
      (predictions uid tv ratings).length :=
    (sortDesc_perm _).length_eq
  have hnot : ¬ (0 ≤ n) := not_le.mpr hn
  refine ⟨pySliceTo (sortDesc (predictions uid tv ratings)) n, ?_, ?_, ?_, ?_⟩
  · simp [recommend, h, htv]
  · simp [pySliceTo, hnot, hlen]
  · simp only [pySliceTo, hnot, if_false, List.length_take, hlen]
    exact min_eq_left (Nat.sub_le _ _)
  · intro hk
    have hpos : 0 < (predictions uid tv ratings).length - (-n).toNat :=
      Nat.sub_pos_of_lt hk
    simp only [pySliceTo, hnot, if_false, hlen]
    intro hnil
    have := congrArg List.length hnil
    simp only [List.length_take, hlen, List.length_nil] at this
    omega

/-- The candidate items examined by the aggregation loop, with multiplicity,
in encounter order: users in store order (the target user skipped), each
user's items in dict insertion order, keeping only items the target has not
rated. -/
def candidateOccurrences (uid : String) (tv : RatingVector) (ratings : Store) : List String :=
  (ratings.filter (fun e => ¬ (e.1 = uid))).flatMap
    (fun e => (keys e.2).filter (fun i => hasKey tv i = false))

/-- First-encounter order of the candidate items during aggregation: every
occurrence appends its item unless it was already seen. -/
def encounterOrder (uid : String) (tv : RatingVector) (ratings : Store) : List String :=
  (candidateOccurrences uid tv ratings).foldl addKey []

lemma lookupAcc_nil (j : String) : lookupAcc [] j = none := rfl

lemma lookupAcc_cons (e : String × ℝ × ℝ) (rest : Acc) (j : String) :
    lookupAcc (e :: rest) j = if e.1 = j then some e.2 else lookupAcc rest j := by
  by_cases h : e.1 = j
  · rw [if_pos h]
    unfold lookupAcc
    rw [List.find?_cons_of_pos _ (by simp [h])]
    rfl
  · rw [if_neg h]
    unfold lookupAcc
    rw [List.find?_cons_of_neg _ (by simp [h])]

lemma lookupAcc_addContribution (acc : Acc) (i j : String) (w s : ℝ) :
    lookupAcc (addContribution acc i w s) j =
      if j = i then
        some (((lookupAcc acc i).getD (0, 0)).1 + w, ((lookupAcc acc i).getD (0, 0)).2 + s)
      else lookupAcc acc j := by
  induction acc generalizing j with
  | nil =>
    by_cases hj : j = i
    · subst hj
      simp [addContribution, lookupAcc_cons, lookupAcc_nil]
    · have hij : ¬ (i = j) := fun hh => hj hh.symm
      simp [addContribution, lookupAcc_cons, lookupAcc_nil, hj, hij]
  | cons e rest ih =>
    unfold addContribution
    by_cases he : e.1 = i
    · rw [if_pos he]
      by_cases hj : j = i
      · have hej : e.1 = j := he.trans hj.symm
        simp [lookupAcc_cons, hej, hj, he]
      · have hej : ¬ (e.1 = j) := fun hh => hj (hh.symm.trans he)
        simp [lookupAcc_cons, hej, hj]
    · rw [if_neg he]
      by_cases hj : j = i
      · have hej : ¬ (e.1 = j) := fun hh => he (hh.trans hj)
        simp [lookupAcc_cons, hej, hj, ih, he]
      · by_cases hej : e.1 = j
        · simp [lookupAcc_cons, hej, hj, ih]
        · simp [lookupAcc_cons, hej, hj, ih]

lemma accKeys_cons (e : String × ℝ × ℝ) (rest : Acc) :
    accKeys (e :: rest) = e.1 :: accKeys rest := rfl

lemma accKeys_addContribution (acc : Acc) (i : String) (w s : ℝ) :
    accKeys (addContribution acc i w s) = addKey (accKeys acc) i := by
  induction acc with
  | nil => simp [addContribution, accKeys, addKey]
  | cons e rest ih =>
    unfold addContribution
    by_cases he : e.1 = i
    · rw [if_pos he]
      rw [accKeys_cons, accKeys_cons]
      unfold addKey
      rw [if_pos (by rw [he]; exact List.mem_cons_self i (accKeys rest))]
    · rw [if_neg he]
      have hie : ¬ (i = e.1) := fun hh => he hh.symm
      rw [accKeys_cons, accKeys_cons, ih]
      unfold addKey
      by_cases hmem : i ∈ accKeys rest
      · rw [if_pos hmem, if_pos (List.mem_cons_of_mem _ hmem)]
      · rw [if_neg hmem, if_neg (by simp [hie, hmem]), List.cons_append]

lemma processItems_cons (tv : RatingVector) (sim : ℝ) (iv : String × ℚ)
    (rest : RatingVector) (acc : Acc) :
    processItems tv sim (iv :: rest) acc =
      processItems tv sim rest
        (if hasKey tv iv.1 then acc else addContribution acc iv.1 (sim * (iv.2 : ℝ)) sim) :=
  rfl

lemma hasKey_cons_self (iv : String × ℚ) (rest : RatingVector) (i : String)
    (h : i = iv.1) : hasKey (iv :: rest) i = true := by
  simp [hasKey, keys, h]

lemma hasKey_cons_ne (iv : String × ℚ) (rest : RatingVector) (i : String)
    (h : ¬ (i = iv.1)) : hasKey (iv :: rest) i = hasKey rest i := by
  simp [hasKey, keys, h]

lemma val_cons_self (iv : String × ℚ) (rest : RatingVector) (i : String)
    (h : iv.1 = i) : val (iv :: rest) i = iv.2 := by
  unfold val
  rw [List.find?_cons_of_pos _ (by simp [h])]
  rfl

lemma val_cons_ne (iv : String × ℚ) (rest : RatingVector) (i : String)
    (h : ¬ (iv.1 = i)) : val (iv :: rest) i = val rest i := by
  unfold val
  rw [List.find?_cons_of_neg _ (by simp [h])]

/-- Effect of one user's item loop on the accumulator, at every key: with
duplicate-free item keys (a dict), the entry of each unrated item `i` of `rv`
gains `(sim · rv[i], sim)`, everything else is untouched. -/
lemma lookupAcc_processItems (tv : RatingVector) (sim : ℝ) (rv : RatingVector)
    (hnd : (keys rv).Nodup) (acc : Acc) (i : String) :
    lookupAcc (processItems tv sim rv acc) i =
      if hasKey tv i = false ∧ hasKey rv i = true then
        some (((lookupAcc acc i).getD (0, 0)).1 + sim * (val rv i : ℝ),
          ((lookupAcc acc i).getD (0, 0)).2 + sim)
      else lookupAcc acc i := by
  induction rv generalizing acc with
  | nil => simp [processItems, hasKey, keys]
  | cons iv rest ih =>
    have hcons : keys (iv :: rest) = iv.1 :: keys rest := rfl
    rcases List.nodup_cons.mp (hcons ▸ hnd) with ⟨hnotin, hnd'⟩
    rw [processItems_cons]
    by_cases hk : hasKey tv iv.1 = true
    · rw [if_pos hk, ih hnd' acc]
      by_cases hii : i = iv.1
      · have h1 : hasKey tv i = true := by rw [hii]; exact hk
        simp [h1]
      · rw [hasKey_cons_ne iv rest i hii,
          val_cons_ne iv rest i (fun hh => hii hh.symm)]
    · rw [if_neg hk, ih hnd' _]
      have hkf : hasKey tv iv.1 = false := Bool.not_eq_true _ ▸ hk
      by_cases hii : i = iv.1
      · have hr : hasKey rest i = false := by rw [hii]; simp [hasKey, hnotin]
        have htv : hasKey tv i = false := by rw [hii]; exact hkf
        rw [lookupAcc_addContribution acc iv.1 i, if_pos hii]
        simp [hr, htv, hasKey_cons_self iv rest i hii, val_cons_self iv rest i hii.symm]
        constructor <;> rw [hii]
      · have hne : ¬ (iv.1 = i) := fun hh => hii hh.symm
        rw [lookupAcc_addContribution acc iv.1 i, if_neg hii,
          hasKey_cons_ne iv rest i hii, val_cons_ne iv rest i hne]

/-- Keys after one user's item loop: each unrated item of `rv` is appended
on first encounter, in the order the loop visits it. -/
lemma accKeys_processItems (tv : RatingVector) (sim : ℝ) (rv : RatingVector) (acc : Acc) :
    accKeys (processItems tv sim rv acc) =
      ((keys rv).filter (fun i => hasKey tv i = false)).foldl addKey (accKeys acc) := by
  induction rv generalizing acc with
  | nil => simp [processItems, keys]
  | cons iv rest ih =>
    rw [processItems_cons]
    by_cases hk : hasKey tv iv.1 = true
    · rw [if_pos hk, ih acc]
      have hfil : (keys (iv :: rest)).filter (fun i => hasKey tv i = false) =
          (keys rest).filter (fun i => hasKey tv i = false) := by
        show List.filter _ (iv.1 :: keys rest) = _
        rw [List.filter_cons]
        simp [hk]
      rw [hfil]
    · have hkf : hasKey tv iv.1 = false := Bool.not_eq_true _ ▸ hk
      rw [if_neg hk, ih _]
      have hfil : (keys (iv :: rest)).filter (fun i => hasKey tv i = false) =
          iv.1 :: (keys rest).filter (fun i => hasKey tv i = false) := by
        show List.filter _ (iv.1 :: keys rest) = _
        rw [List.filter_cons]
        simp [hkf]
      rw [hfil, List.foldl_cons, accKeys_addContribution]

lemma contributors_append (uid : String) (l1 l2 : Store) (i : String) :
    contributors uid (l1 ++ l2) i = contributors uid l1 i ++ contributors uid l2 i := by
  simp [contributors]

lemma weightedSumSpec_append (uid : String) (tv : RatingVector) (l1 l2 : Store) (i : String) :
    weightedSumSpec uid tv (l1 ++ l2) i =
      weightedSumSpec uid tv l1 i + weightedSumSpec uid tv l2 i := by
  simp [weightedSumSpec, contributors_append]

lemma simSumSpec_append (uid : String) (tv : RatingVector) (l1 l2 : Store) (i : String) :
    simSumSpec uid tv (l1 ++ l2) i = simSumSpec uid tv l1 i + simSumSpec uid tv l2 i := by
  simp [simSumSpec, contributors_append]

lemma contributors_singleton_pos (uid : String) (e : String × RatingVector) (i : String)
    (h1 : ¬ (e.1 = uid)) (h2 : hasKey e.2 i = true) :
    contributors uid [e] i = [e] := by
  simp [contributors, List.filter_cons, h1, h2]

lemma contributors_singleton_skip (uid : String) (e : String × RatingVector) (i : String)
    (h : e.1 = uid) : contributors uid [e] i = [] := by
  simp [contributors, List.filter_cons, h]

lemma contributors_singleton_nokey (uid : String) (e : String × RatingVector) (i : String)
    (h : hasKey e.2 i = false) : contributors uid [e] i = [] := by
  simp [contributors, List.filter_cons, h]

lemma aggregate_append (uid : String) (tv : RatingVector) (l : Store)
    (e : String × RatingVector) :
    aggregate uid tv (l ++ [e]) = processUser uid tv (aggregate uid tv l) e := by
  simp [aggregate, List.foldl_append]

/-- The loop invariant of `recommend`'s aggregation: after the full loop the
accumulator holds, for each item `i` unrated by the target and rated by at
least one other user, exactly the pair
`(weighted_sum[i], similarity_sum[i])` of the specification, and nothing
else. Requires duplicate-free item keys per user (Python dicts). -/
lemma lookupAcc_aggregate (uid : String) (tv : RatingVector) (ratings : Store)
    (hnd : ∀ e ∈ ratings, (keys e.2).Nodup) (i : String) :
    lookupAcc (aggregate uid tv ratings) i =
      if hasKey tv i = false ∧ contributors uid ratings i ≠ [] then
        some (weightedSumSpec uid tv ratings i, simSumSpec uid tv ratings i)
      else none := by
  induction ratings using List.reverseRecOn with
  | nil => simp [aggregate, contributors, lookupAcc_nil]
  | append_singleton l e ih =>
    have hndl : ∀ f ∈ l, (keys f.2).Nodup := fun f hf => hnd f (by simp [hf])
    have hnde : (keys e.2).Nodup := hnd e (by simp)
    rw [aggregate_append]
    unfold processUser
    by_cases hue : e.1 = uid
    · rw [if_pos hue, ih hndl]
      have hc : contributors uid (l ++ [e]) i = contributors uid l i := by
        rw [contributors_append, contributors_singleton_skip uid e i hue, List.append_nil]
      have hw : weightedSumSpec uid tv (l ++ [e]) i = weightedSumSpec uid tv l i := by
        simp [weightedSumSpec, hc]
      have hs : simSumSpec uid tv (l ++ [e]) i = simSumSpec uid tv l i := by
        simp [simSumSpec, hc]
      rw [hc, hw, hs]
    · rw [if_neg hue]
      rw [lookupAcc_processItems tv _ e.2 hnde _ i, ih hndl]
      by_cases htvi : hasKey tv i = false
      · by_cases hkey : hasKey e.2 i = true
        · have hc : contributors uid (l ++ [e]) i = contributors uid l i ++ [e] := by
            rw [contributors_append, contributors_singleton_pos uid e i hue hkey]
          have hw : weightedSumSpec uid tv (l ++ [e]) i =
              weightedSumSpec uid tv l i + cosine_similarity tv e.2 * (val e.2 i : ℝ) := by
            simp [weightedSumSpec, hc]
          have hs : simSumSpec uid tv (l ++ [e]) i =
              simSumSpec uid tv l i + cosine_similarity tv e.2 := by
            simp [simSumSpec, hc]
          have hne : contributors uid (l ++ [e]) i ≠ [] := by
            rw [hc]; simp
          rw [if_pos ⟨htvi, hkey⟩]
          conv_rhs => rw [if_pos ⟨htvi, hne⟩]
          rw [hw, hs]
          by_cases hcl : contributors uid l i = []
          · rw [if_neg (fun hcond => hcond.2 hcl)]
            have hw0 : weightedSumSpec uid tv l i = 0 := by simp [weightedSumSpec, hcl]
            have hs0 : simSumSpec uid tv l i = 0 := by simp [simSumSpec, hcl]
            rw [hw0, hs0]
            simp
          · rw [if_pos ⟨htvi, hcl⟩]
            simp
        · have hkf : hasKey e.2 i = false := Bool.not_eq_true _ ▸ hkey
          have hc : contributors uid (l ++ [e]) i = contributors uid l i := by
            rw [contributors_append, contributors_singleton_nokey uid e i hkf,
              List.append_nil]
          have hw : weightedSumSpec uid tv (l ++ [e]) i = weightedSumSpec uid tv l i := by
            simp [weightedSumSpec, hc]
          have hs : simSumSpec uid tv (l ++ [e]) i = simSumSpec uid tv l i := by
            simp [simSumSpec, hc]
          rw [if_neg (fun hcond => hkey hcond.2), hc, hw, hs]
      · rw [if_neg (fun hcond => htvi hcond.1), if_neg (fun hcond => htvi hcond.1),
          if_neg (fun hcond => htvi hcond.1)]

/-- Keys of the full accumulator are exactly the candidate items in
first-encounter order. -/
lemma accKeys_aggregate (uid : String) (tv : RatingVector) (ratings : Store) :
    accKeys (aggregate uid tv ratings) = encounterOrder uid tv ratings := by
  induction ratings using List.reverseRecOn with
  | nil => simp [aggregate, encounterOrder, candidateOccurrences, accKeys]
  | append_singleton l e ih =>
    rw [aggregate_append]
    unfold processUser
    by_cases hue : e.1 = uid
    · rw [if_pos hue, ih]
      have hocc : candidateOccurrences uid tv (l ++ [e]) = candidateOccurrences uid tv l := by
        simp [candidateOccurrences, List.filter_append, List.filter_cons, hue]
      simp [encounterOrder, hocc]
    · rw [if_neg hue, accKeys_processItems, ih]
      have hocc : candidateOccurrences uid tv (l ++ [e]) =
          candidateOccurrences uid tv l ++
            (keys e.2).filter (fun i => hasKey tv i = false) := by
        simp [candidateOccurrences, List.filter_append, List.filter_cons, hue]
      simp only [encounterOrder, hocc, List.foldl_append]

lemma addKey_nodup (ks : List String) (i : String) (h : ks.Nodup) : (addKey ks i).Nodup := by
  unfold addKey
  by_cases hmem : i ∈ ks
  · rw [if_pos hmem]; exact h
  · rw [if_neg hmem]
    simp [List.nodup_append, h, hmem]

lemma foldl_addKey_nodup (l : List String) (ks : List String) (h : ks.Nodup) :
    (l.foldl addKey ks).Nodup := by
  induction l generalizing ks with
  | nil => exact h
  | cons x xs ih => exact ih _ (addKey_nodup ks x h)

lemma accKeys_aggregate_nodup (uid : String) (tv : RatingVector) (ratings : Store) :
    (accKeys (aggregate uid tv ratings)).Nodup := by
  rw [accKeys_aggregate]
  unfold encounterOrder
  exact foldl_addKey_nodup _ _ List.nodup_nil

/-- With duplicate-free keys, accumulator membership is dict lookup. -/
lemma mem_acc_iff_lookupAcc (acc : Acc) (hk : (accKeys acc).Nodup) (e : String × ℝ × ℝ) :
    e ∈ acc ↔ lookupAcc acc e.1 = some e.2 := by
  induction acc with
  | nil => simp [lookupAcc_nil]
  | cons f rest ih =>
    rcases List.nodup_cons.mp (by rw [accKeys_cons] at hk; exact hk) with ⟨hnot, hrest⟩
    rw [lookupAcc_cons]
    constructor
    · intro hmem
      rcases List.mem_cons.mp hmem with rfl | hmem'
      · rw [if_pos rfl]
      · have hne : ¬ (f.1 = e.1) := by
          intro hh
          exact hnot (hh ▸ (List.mem_map_of_mem Prod.fst hmem'))
        rw [if_neg hne]
        exact (ih hrest).mp hmem'
    · intro hl
      by_cases hf : f.1 = e.1
      · rw [if_pos hf] at hl
        injection hl with hl2
        have hfe : f = e := Prod.ext hf hl2
        exact hfe ▸ List.mem_cons_self f rest
      · rw [if_neg hf] at hl
        exact List.mem_cons_of_mem f ((ih hrest).mpr hl)

/-- Membership characterization of the prediction list before ranking. -/
lemma mem_predictions_iff (uid : String) (tv : RatingVector) (ratings : Store)
    (hnd : ∀ e ∈ ratings, (keys e.2).Nodup) (i : String) (r : ℝ) :
    (i, r) ∈ predictions uid tv ratings ↔
      hasKey tv i = false ∧ contributors uid ratings i ≠ [] ∧
        simSumSpec uid tv ratings i ≠ 0 ∧
        r = round2 (weightedSumSpec uid tv ratings i / simSumSpec uid tv ratings i) := by
  unfold predictions
  rw [List.mem_filterMap]
  constructor
  · rintro ⟨e, he, hfe⟩
    by_cases h0 : e.2.2 = 0
    · rw [if_neg (fun hh => hh h0)] at hfe
      cases hfe
    · rw [if_pos h0] at hfe
      have hpair := Option.some.inj hfe
      have h1 : e.1 = i := congrArg Prod.fst hpair
      have h2 : round2 (e.2.1 / e.2.2) = r := congrArg Prod.snd hpair
      have hlook : lookupAcc (aggregate uid tv ratings) e.1 = some e.2 :=
        (mem_acc_iff_lookupAcc _ (accKeys_aggregate_nodup uid tv ratings) e).mp he
      rw [lookupAcc_aggregate uid tv ratings hnd e.1] at hlook
      by_cases hcond : hasKey tv e.1 = false ∧ contributors uid ratings e.1 ≠ []
      · rw [if_pos hcond] at hlook
        have he2 := Option.some.inj hlook
        have hw : e.2.1 = weightedSumSpec uid tv ratings e.1 :=
          (congrArg Prod.fst he2).symm
        have hs : e.2.2 = simSumSpec uid tv ratings e.1 :=
          (congrArg Prod.snd he2).symm
        refine ⟨h1 ▸ hcond.1, h1 ▸ hcond.2, ?_, ?_⟩
        · rw [← h1, ← hs]
          exact h0
        · rw [← h1, ← hw, ← hs]
          exact h2.symm
      · rw [if_neg hcond] at hlook
        cases hlook
  · rintro ⟨h1, h2, h3, h4⟩
    refine ⟨(i, (weightedSumSpec uid tv ratings i, simSumSpec uid tv ratings i)), ?_, ?_⟩
    · rw [mem_acc_iff_lookupAcc _ (accKeys_aggregate_nodup uid tv ratings)]
      rw [lookupAcc_aggregate uid tv ratings hnd]
      rw [if_pos ⟨h1, h2⟩]
    · rw [if_pos h3, h4]

lemma map_fst_predictions_sublist (uid : String) (tv : RatingVector) (ratings : Store) :
    ((predictions uid tv ratings).map Prod.fst).Sublist
      (accKeys (aggregate uid tv ratings)) := by
  unfold predictions
  generalize aggregate uid tv ratings = acc
  induction acc with
  | nil => simp
  | cons e rest ih =>
    rw [List.filterMap_cons]
    by_cases h0 : e.2.2 = 0
    · rw [if_neg (fun hh => hh h0), accKeys_cons]
      exact ih.cons e.1
    · rw [if_pos h0, List.map_cons, accKeys_cons]
      exact ih.cons₂ e.1

lemma predictions_keys_nodup (uid : String) (tv : RatingVector) (ratings : Store) :
    ((predictions uid tv ratings).map Prod.fst).Nodup :=
  (accKeys_aggregate_nodup uid tv ratings).sublist
    (map_fst_predictions_sublist uid tv ratings)

lemma map_fst_filterMap_acc (acc : Acc) :
    ((acc.filterMap (fun e =>
      if e.2.2 ≠ 0 then some (e.1, round2 (e.2.1 / e.2.2)) else none)).map Prod.fst) =
      (acc.filter (fun e => e.2.2 ≠ 0)).map Prod.fst := by
  induction acc with
  | nil => simp
  | cons e rest ih =>
    rw [List.filterMap_cons, List.filter_cons]
    by_cases h0 : e.2.2 = 0
    · rw [if_neg (fun hh => hh h0), if_neg (by simp [h0]), ih]
    · rw [if_pos h0, if_pos (by simp [h0]), List.map_cons, List.map_cons, ih]

lemma map_fst_filter_eq (acc : Acc) (p : String × ℝ × ℝ → Bool) (q : String → Bool)
    (h : ∀ e ∈ acc, p e = q e.1) :
    (acc.filter p).map Prod.fst = (accKeys acc).filter q := by
  induction acc with
  | nil => simp [accKeys]
  | cons e rest ih =>
    rw [List.filter_cons, accKeys_cons, List.filter_cons]
    have hpe := h e (List.mem_cons_self e rest)
    have ihr := ih fun f hf => h f (List.mem_cons_of_mem e hf)
    by_cases hq : q e.1 = true
    · rw [if_pos (hpe.trans hq), if_pos hq, List.map_cons, ihr]
    · have hp' : ¬ (p e = true) := by rw [hpe]; exact hq
      rw [if_neg hp', if_neg hq, ihr]

/-- The item column of the prediction list is the first-encounter order of
candidate items, filtered to those with a nonzero similarity sum. -/
lemma map_fst_predictions (uid : String) (tv : RatingVector) (ratings : Store)
    (hnd : ∀ e ∈ ratings, (keys e.2).Nodup) :
    (predictions uid tv ratings).map Prod.fst =
      (encounterOrder uid tv ratings).filter
        (fun i => simSumSpec uid tv ratings i ≠ 0) := by
  unfold predictions
  rw [map_fst_filterMap_acc, ← accKeys_aggregate uid tv ratings]
  apply map_fst_filter_eq
  intro e he
  have hlook := (mem_acc_iff_lookupAcc _ (accKeys_aggregate_nodup uid tv ratings) e).mp he
  rw [lookupAcc_aggregate uid tv ratings hnd e.1] at hlook
  by_cases hcond : hasKey tv e.1 = false ∧ contributors uid ratings e.1 ≠ []
  · rw [if_pos hcond] at hlook
    have hs : e.2.2 = simSumSpec uid tv ratings e.1 :=
      (congrArg Prod.snd (Option.some.inj hlook)).symm
    rw [hs]
  · rw [if_neg hcond] at hlook
    cases hlook

/-- C1: the multiset of predictions produced before ranking/truncation is
exactly the set of pairs `(i, round(weighted_sum[i] / similarity_sum[i], 2))`
over items `i` unrated by the target, rated by at least one other user and
with accumulated `similarity_sum[i] ≠ 0`; items with zero similarity sum
never appear. The item column is duplicate-free, so the membership
equivalence determines the multiset. -/
theorem claim_C1_predictions_exact (uid : String) (tv : RatingVector) (ratings : Store)
    (hnd : ∀ e ∈ ratings, (keys e.2).Nodup) :
    ((predictions uid tv ratings).map Prod.fst).Nodup ∧
    ∀ i r, (i, r) ∈ predictions uid tv ratings ↔
      hasKey tv i = false ∧ (∃ e ∈ ratings, ¬ (e.1 = uid) ∧ hasKey e.2 i = true) ∧
        simSumSpec uid tv ratings i ≠ 0 ∧
        r = round2 (weightedSumSpec uid tv ratings i / simSumSpec uid tv ratings i) := by
  refine ⟨predictions_keys_nodup uid tv ratings, ?_⟩
  intro i r
  rw [mem_predictions_iff uid tv ratings hnd i r]
  have hiff : contributors uid ratings i ≠ [] ↔
      ∃ e ∈ ratings, ¬ (e.1 = uid) ∧ hasKey e.2 i = true := by
    constructor
    · intro hne
      obtain ⟨x, hx⟩ := List.exists_mem_of_ne_nil _ hne
      rcases List.mem_filter.mp hx with ⟨hmem, hpred⟩
      refine ⟨x, hmem, ?_⟩
      simpa using hpred
    · rintro ⟨e, he, h1, h2⟩
      intro hnil
      have hmem : e ∈ contributors uid ratings i :=
        List.mem_filter.mpr ⟨he, by simp [h1, h2]⟩
      rw [hnil] at hmem
      cases hmem
  rw [hiff]

/-- Witness for C1, on the two-user store where `u2` rates the unseen item
`"c"`. -/
theorem claim_C1_witness :
    ((predictions "u1" [("a", (5 : ℚ))]
      [("u1", [("a", (5 : ℚ))]), ("u2", [("a", (4 : ℚ)), ("c", (5 : ℚ))])]).map
        Prod.fst).Nodup ∧
    ∀ i r, (i, r) ∈ predictions "u1" [("a", (5 : ℚ))]
        [("u1", [("a", (5 : ℚ))]), ("u2", [("a", (4 : ℚ)), ("c", (5 : ℚ))])] ↔
      hasKey [("a", (5 : ℚ))] i = false ∧
        (∃ e ∈ [("u1", [("a", (5 : ℚ))]), ("u2", [("a", (4 : ℚ)), ("c", (5 : ℚ))])],
          ¬ (e.1 = "u1") ∧ hasKey e.2 i = true) ∧
        simSumSpec "u1" [("a", (5 : ℚ))]
          [("u1", [("a", (5 : ℚ))]), ("u2", [("a", (4 : ℚ)), ("c", (5 : ℚ))])] i ≠ 0 ∧
        r = round2 (weightedSumSpec "u1" [("a", (5 : ℚ))]
          [("u1", [("a", (5 : ℚ))]), ("u2", [("a", (4 : ℚ)), ("c", (5 : ℚ))])] i /
            simSumSpec "u1" [("a", (5 : ℚ))]
              [("u1", [("a", (5 : ℚ))]), ("u2", [("a", (4 : ℚ)), ("c", (5 : ℚ))])] i) :=
  claim_C1_predictions_exact "u1" [("a", (5 : ℚ))]
    [("u1", [("a", (5 : ℚ))]), ("u2", [("a", (4 : ℚ)), ("c", (5 : ℚ))])] (by decide)

/-- C9: equal-score predictions keep their aggregation first-encounter
order. The item column of the prediction list is the first-encounter order
(users in store order, items in each user's insertion order) filtered to
nonzero similarity sums, and for every score value the output's entries with
that score are an initial segment of the prediction list's entries with that
score — the sort is stable and truncation keeps a prefix. -/
theorem claim_C9_stable_ties (uid : String) (ratings : Store) (tv : RatingVector)
    (n : ℤ) (hnd : ∀ e ∈ ratings, (keys e.2).Nodup)
    (h : getUser ratings uid = some tv) (htv : tv ≠ []) :
    ∃ out, recommend uid ratings n = .ok out ∧
      (predictions uid tv ratings).map Prod.fst =
        (encounterOrder uid tv ratings).filter
          (fun i => simSumSpec uid tv ratings i ≠ 0) ∧
      ∀ c : ℝ, ∃ k, out.filter (fun e => e.2 = c) =
        ((predictions uid tv ratings).filter (fun e => e.2 = c)).take k := by
  refine ⟨pySliceTo (sortDesc (predictions uid tv ratings)) n, ?_,
    map_fst_predictions uid tv ratings hnd, ?_⟩
  · simp [recommend, h, htv]
  · intro c
    have hslice : ∃ m, pySliceTo (sortDesc (predictions uid tv ratings)) n =
        (sortDesc (predictions uid tv ratings)).take m := by
      unfold pySliceTo
      by_cases hn : 0 ≤ n
      · exact ⟨n.toNat, by rw [if_pos hn]⟩
      · exact ⟨_, by rw [if_neg hn]⟩
    obtain ⟨m, hm⟩ := hslice
    rw [hm]
    obtain ⟨k, hk⟩ := filter_take_eq_take_filter (fun e => decide (e.2 = c))
      (sortDesc (predictions uid tv ratings)) m
    rw [filter_sortDesc c] at hk
    exact ⟨k, hk⟩

/-- Witness for C9: a two-user store with one candidate item. -/
theorem claim_C9_witness :
    ∃ out, recommend "u1" [("u1", [("a", (5 : ℚ))]), ("u2", [("a", (4 : ℚ)), ("c", (5 : ℚ))])]
        3 = .ok out ∧
      (predictions "u1" [("a", (5 : ℚ))]
        [("u1", [("a", (5 : ℚ))]), ("u2", [("a", (4 : ℚ)), ("c", (5 : ℚ))])]).map Prod.fst =
        (encounterOrder "u1" [("a", (5 : ℚ))]
          [("u1", [("a", (5 : ℚ))]), ("u2", [("a", (4 : ℚ)), ("c", (5 : ℚ))])]).filter
          (fun i => simSumSpec "u1" [("a", (5 : ℚ))]
            [("u1", [("a", (5 : ℚ))]), ("u2", [("a", (4 : ℚ)), ("c", (5 : ℚ))])] i ≠ 0) ∧
      ∀ c : ℝ, ∃ k, out.filter (fun e => e.2 = c) =
        ((predictions "u1" [("a", (5 : ℚ))]
          [("u1", [("a", (5 : ℚ))]), ("u2", [("a", (4 : ℚ)), ("c", (5 : ℚ))])]).filter
          (fun e => e.2 = c)).take k :=
  claim_C9_stable_ties "u1" _ _ 3 (by decide) (by simp [getUser, List.find?]) (by simp)

lemma val_nonneg (v : RatingVector) (hv : ∀ iv ∈ v, 0 ≤ iv.2) (i : String) :
    0 ≤ val v i := by
  unfold val
  rcases hf : v.find? (fun e => e.1 = i) with _ | iv
  · rw [hf]
    simp
  · rw [hf]
    exact hv iv (List.mem_of_find?_eq_some hf)

lemma val_le_of_hasKey (v : RatingVector) (hv : ∀ iv ∈ v, iv.2 ≤ 5) (i : String)
    (hk : hasKey v i = true) : val v i ≤ 5 := by
  unfold val
  rcases hf : v.find? (fun e => e.1 = i) with _ | iv
  · exfalso
    have hnone := List.find?_eq_none.mp hf
    have hmem : i ∈ keys v := by simpa [hasKey] using hk
    obtain ⟨e, he, hei⟩ := List.mem_map.mp hmem
    exact hnone e he (by simp [hei])
  · rw [hf]
    exact hv iv (List.mem_of_find?_eq_some hf)

/-- With all scores nonnegative, cosine similarity is nonnegative: the dot
product of nonnegative vectors over the nonnegative denominator. -/
lemma cosine_similarity_nonneg (a b : RatingVector)
    (ha : ∀ iv ∈ a, 0 ≤ iv.2) (hb : ∀ iv ∈ b, 0 ≤ iv.2) :
    0 ≤ cosine_similarity a b := by
  unfold cosine_similarity
  by_cases hc : commonItems a b = ∅
  · simp [hc]
  · rw [if_neg hc]
    by_cases hd : Real.sqrt (sum1_sq a b) * Real.sqrt (sum2_sq a b) ≠ 0
    · rw [if_pos hd]
      apply div_nonneg
      · have hq : (0 : ℚ) ≤ sum1 a b :=
          Finset.sum_nonneg fun i _ => mul_nonneg (val_nonneg a ha i) (val_nonneg b hb i)
        exact_mod_cast hq
      · exact mul_nonneg (Real.sqrt_nonneg _) (Real.sqrt_nonneg _)
    · rw [if_neg hd]

lemma roundHalfEven_nonneg (y : ℝ) (hy : 0 ≤ y) : 0 ≤ roundHalfEven y := by
  unfold roundHalfEven
  have h0 : (0 : ℤ) ≤ ⌊y⌋ := Int.le_floor.mpr (by exact_mod_cast hy)
  split_ifs <;> omega

lemma roundHalfEven_le_500 (y : ℝ) (hy : y ≤ 500) : roundHalfEven y ≤ 500 := by
  unfold roundHalfEven
  have hfl : ⌊y⌋ ≤ 500 := by
    have h1 : (⌊y⌋ : ℝ) ≤ 500 := le_trans (Int.floor_le y) hy
    exact_mod_cast h1
  split_ifs with h1 h2 h3
  · exact hfl
  · have hlt : (⌊y⌋ : ℝ) < 500 := by linarith
    have hlt' : ⌊y⌋ < 500 := by exact_mod_cast hlt
    omega
  · exact hfl
  · have h1' : (1 : ℝ) / 2 ≤ y - ⌊y⌋ := le_of_not_lt h1
    have hlt : (⌊y⌋ : ℝ) < 500 := by linarith
    have hlt' : ⌊y⌋ < 500 := by exact_mod_cast hlt
    omega

lemma round2_nonneg (x : ℝ) (hx : 0 ≤ x) : 0 ≤ round2 x := by
  unfold round2
  apply div_nonneg _ (by norm_num)
  exact_mod_cast roundHalfEven_nonneg (100 * x) (by linarith)

lemma round2_le_five (x : ℝ) (hx : x ≤ 5) : round2 x ≤ 5 := by
  unfold round2
  rw [div_le_iff₀ (by norm_num : (0 : ℝ) < 100)]
  have hb : roundHalfEven (100 * x) ≤ 500 := roundHalfEven_le_500 (100 * x) (by linarith)
  calc (roundHalfEven (100 * x) : ℝ) ≤ 500 := by exact_mod_cast hb
    _ = 5 * 100 := by norm_num

/-- With all scores in `[0, 5]`, every surviving prediction quotient is a
nonnegatively-weighted average of in-range scores, hence itself in `[0, 5]`. -/
lemma predicted_range (uid : String) (tv : RatingVector) (ratings : Store)
    (hrange : ∀ e ∈ ratings, ∀ iv ∈ e.2, 0 ≤ iv.2 ∧ iv.2 ≤ 5)
    (htv0 : ∀ iv ∈ tv, 0 ≤ iv.2) (i : String)
    (hss : simSumSpec uid tv ratings i ≠ 0) :
    0 ≤ weightedSumSpec uid tv ratings i / simSumSpec uid tv ratings i ∧
      weightedSumSpec uid tv ratings i / simSumSpec uid tv ratings i ≤ 5 := by
  have hcs : ∀ e ∈ contributors uid ratings i, e ∈ ratings :=
    fun e he => (List.mem_filter.mp he).1
  have hsim_nonneg : ∀ e ∈ contributors uid ratings i, 0 ≤ cosine_similarity tv e.2 :=
    fun e he => cosine_similarity_nonneg tv e.2 htv0
      (fun iv hiv => (hrange e (hcs e he) iv hiv).1)
  have hval : ∀ e ∈ contributors uid ratings i,
      0 ≤ (val e.2 i : ℝ) ∧ (val e.2 i : ℝ) ≤ 5 := by
    intro e he
    have hk : hasKey e.2 i = true := by
      have hpred := (List.mem_filter.mp he).2
      simp only [decide_eq_true_eq] at hpred
      exact hpred.2
    constructor
    · exact_mod_cast val_nonneg e.2 (fun iv hiv => (hrange e (hcs e he) iv hiv).1) i
    · exact_mod_cast val_le_of_hasKey e.2
        (fun iv hiv => (hrange e (hcs e he) iv hiv).2) i hk
  have hss_nonneg : 0 ≤ simSumSpec uid tv ratings i := by
    apply List.sum_nonneg
    intro x hx
    obtain ⟨e, he, rfl⟩ := List.mem_map.mp hx
    exact hsim_nonneg e he
  have hss_pos : 0 < simSumSpec uid tv ratings i := lt_of_le_of_ne hss_nonneg (Ne.symm hss)
  have hws_nonneg : 0 ≤ weightedSumSpec uid tv ratings i := by
    apply List.sum_nonneg
    intro x hx
    obtain ⟨e, he, rfl⟩ := List.mem_map.mp hx
    exact mul_nonneg (hsim_nonneg e he) (hval e he).1
  have hws_le : weightedSumSpec uid tv ratings i ≤ 5 * simSumSpec uid tv ratings i := by
    unfold weightedSumSpec
    calc ((contributors uid ratings i).map
        (fun e => cosine_similarity tv e.2 * (val e.2 i : ℝ))).sum
        ≤ ((contributors uid ratings i).map
            (fun e => 5 * cosine_similarity tv e.2)).sum := by
          apply List.sum_le_sum
          intro e he
          calc cosine_similarity tv e.2 * (val e.2 i : ℝ)
              ≤ cosine_similarity tv e.2 * 5 :=
                mul_le_mul_of_nonneg_left (hval e he).2 (hsim_nonneg e he)
            _ = 5 * cosine_similarity tv e.2 := mul_comm _ _
      _ = 5 * simSumSpec uid tv ratings i := by
          rw [List.sum_map_mul_left]
          rfl
  constructor
  · exact div_nonneg hws_nonneg hss_nonneg
  · rw [div_le_iff₀ hss_pos]
    linarith [hws_le]

/-- C8: on a store whose scores all lie in `[0, 5]` (the validated
invariant), every pairwise cosine similarity is nonnegative, and every
predicted score returned by `recommend` lies in `[0, 5]` — each prediction
is a nonnegatively-weighted average of in-range ratings and rounding to two
decimals preserves the range. -/
theorem claim_C8_score_range (uid : String) (ratings : Store) (tv : RatingVector)
    (n : ℤ) (hrange : ∀ e ∈ ratings, ∀ iv ∈ e.2, 0 ≤ iv.2 ∧ iv.2 ≤ 5)
    (hnd : ∀ e ∈ ratings, (keys e.2).Nodup)
    (h : getUser ratings uid = some tv) (htv : tv ≠ []) :
    (∀ e ∈ ratings, ∀ f ∈ ratings, 0 ≤ cosine_similarity e.2 f.2) ∧
    ∃ out, recommend uid ratings n = .ok out ∧ ∀ p ∈ out, 0 ≤ p.2 ∧ p.2 ≤ 5 := by
  have hnn : ∀ e ∈ ratings, ∀ iv ∈ e.2, 0 ≤ iv.2 :=
    fun e he iv hiv => (hrange e he iv hiv).1
  constructor
  · intro e he f hf
    exact cosine_similarity_nonneg e.2 f.2 (hnn e he) (hnn f hf)
  · refine ⟨pySliceTo (sortDesc (predictions uid tv ratings)) n, ?_, ?_⟩
    · simp [recommend, h, htv]
    · intro p hp
      have hp1 : p ∈ sortDesc (predictions uid tv ratings) := by
        have hslice : ∃ m, pySliceTo (sortDesc (predictions uid tv ratings)) n =
            (sortDesc (predictions uid tv ratings)).take m := by
          unfold pySliceTo
          by_cases hn : 0 ≤ n
          · exact ⟨n.toNat, by rw [if_pos hn]⟩
          · exact ⟨_, by rw [if_neg hn]⟩
        obtain ⟨m, hm⟩ := hslice
        rw [hm] at hp
        exact (List.take_sublist m _).subset hp
      have hp2 : p ∈ predictions uid tv ratings := (sortDesc_perm _).subset hp1
      have htv0 : ∀ iv ∈ tv, 0 ≤ iv.2 := by
        have hex : ∃ e ∈ ratings, e.2 = tv := by
          unfold getUser at h
          obtain ⟨e, hfind, hsnd⟩ := Option.map_eq_some'.mp h
          exact ⟨e, List.mem_of_find?_eq_some hfind, hsnd⟩
        obtain ⟨e, he, rfl⟩ := hex
        exact hnn e he
      rcases p with ⟨i, r⟩
      rcases (mem_predictions_iff uid tv ratings hnd i r).mp hp2 with ⟨h1, h2, h3, h4⟩
      have hrng := predicted_range uid tv ratings hrange htv0 i h3
      have hfst : (0 : ℝ) ≤ r := h4 ▸ round2_nonneg _ hrng.1
      have hsnd : r ≤ 5 := h4 ▸ round2_le_five _ hrng.2
      exact ⟨hfst, hsnd⟩

/-- Witness for C8: a fully in-range two-user store. -/
theorem claim_C8_witness :
    (∀ e ∈ [("u1", [("a", (5 : ℚ))]), ("u2", [("a", (4 : ℚ)), ("c", (5 : ℚ))])],
      ∀ f ∈ [("u1", [("a", (5 : ℚ))]), ("u2", [("a", (4 : ℚ)), ("c", (5 : ℚ))])],
        0 ≤ cosine_similarity e.2 f.2) ∧
    ∃ out, recommend "u1" [("u1", [("a", (5 : ℚ))]), ("u2", [("a", (4 : ℚ)), ("c", (5 : ℚ))])]
        3 = .ok out ∧ ∀ p ∈ out, 0 ≤ p.2 ∧ p.2 ≤ 5 :=
  claim_C8_score_range "u1"
    [("u1", [("a", (5 : ℚ))]), ("u2", [("a", (4 : ℚ)), ("c", (5 : ℚ))])]
    [("a", (5 : ℚ))] 3 (by decide) (by decide)
    (by simp [getUser, List.find?]) (by simp)

/-- Witness for C10: two users, `top_n = -1`. -/
theorem claim_C10_witness :
    ∃ out, recommend "u1" [("u1", [("a", (1 : ℚ))]), ("u2", [("b", (2 : ℚ))])] (-1) = .ok out ∧
      out = (sortDesc (predictions "u1" [("a", (1 : ℚ))]
        [("u1", [("a", (1 : ℚ))]), ("u2", [("b", (2 : ℚ))])])).take
        ((predictions "u1" [("a", (1 : ℚ))]
          [("u1", [("a", (1 : ℚ))]), ("u2", [("b", (2 : ℚ))])]).length - (-(-1 : ℤ)).toNat) ∧
      out.length = (predictions "u1" [("a", (1 : ℚ))]
        [("u1", [("a", (1 : ℚ))]), ("u2", [("b", (2 : ℚ))])]).length - (-(-1 : ℤ)).toNat ∧
      ((-(-1 : ℤ)).toNat < (predictions "u1" [("a", (1 : ℚ))]
        [("u1", [("a", (1 : ℚ))]), ("u2", [("b", (2 : ℚ))])]).length → out ≠ []) :=
  claim_C10_negative_topn "u1" _ _ (-1) (by simp [getUser, List.find?]) (by simp) (by decide)

end Ex3
